import Mathlib

/-!
Shallow embedding of `main.py` from the cons0leweb-utils repository.

Part 1 embeds the `FileOperations` static helpers that the claims of the spec
touch: `create_backup`, `restore_backup` and `add_text_to_file`
(main.py lines 98-156).  The filesystem is modelled as an association of
paths to file contents; a raised `OSError` from `open`/`shutil.copy2` is
modelled as `Option.none`.

Part 2 (further below) embeds the `FileProcessor` worker-pool engine
(main.py lines 35-96) as an interleaving small-step transition system.
-/

/-- `BACKUP_EXTENSION` constant (main.py line 23). -/
def BACKUP_EXTENSION : String := ".bak.cu"

/-- A model filesystem: an association of paths to file contents. -/
structure FS where
  files : List (String × String)
deriving DecidableEq, Repr

/-- Reading a file, `open(path, 'r').read()`; a missing path raises, which
is modelled by `none`. -/
def FS.read (fs : FS) (p : String) : Option String :=
  (fs.files.find? (fun kv => kv.1 == p)).map (fun kv => kv.2)

/-- Writing a file, `open(path, 'w').write(c)`: creates or overwrites. -/
def FS.write (fs : FS) (p c : String) : FS :=
  ⟨(p, c) :: fs.files.filter (fun kv => kv.1 != p)⟩

/-- `shutil.copy2(src, dst)`; `none` models the exception raised when the
source does not exist. -/
def copy2 (fs : FS) (src dst : String) : Option FS :=
  (fs.read src).map (fun c => fs.write dst c)

/-- Python `str.endswith(suffix)` on the character sequences. -/
def pyEndswith (s suffix : String) : Bool :=
  suffix.data.isSuffixOf s.data

/-- Python slicing `s[:-n]` for `0 < n ≤ len(s)` (drop the last `n`
characters; total on all inputs). -/
def pyDropRight (s : String) (n : Nat) : String :=
  ⟨s.data.take (s.data.length - n)⟩

/-- `FileOperations.create_backup` (main.py lines 129-140): the timestamp
`datetime.now().strftime("%Y%m%d_%H%M%S")` is passed in as a parameter.
Returns the new filesystem and `Optional[str]` result: on success the
backup path `f"{file_path}_{timestamp}{BACKUP_EXTENSION}"`, on exception
`None` and an unchanged filesystem. -/
def create_backup (fs : FS) (file_path timestamp : String) : FS × Option String :=
  let backup_path := file_path ++ "_" ++ timestamp ++ BACKUP_EXTENSION
  match copy2 fs file_path backup_path with
  | some fs2 => (fs2, some backup_path)
  | none => (fs, none)

/-- `FileOperations.restore_backup` (main.py lines 142-156): if the path
does not end with `BACKUP_EXTENSION` return `False` with no copy;
otherwise strip exactly the suffix (`backup_path[:-len(BACKUP_EXTENSION)]`)
and `shutil.copy2` the backup onto that path. -/
def restore_backup (fs : FS) (backup_path : String) : FS × Bool :=
  if pyEndswith backup_path BACKUP_EXTENSION then
    let original_path := pyDropRight backup_path BACKUP_EXTENSION.length
    match copy2 fs backup_path original_path with
    | some fs2 => (fs2, true)
    | none => (fs, false)
  else
    (fs, false)

/-- Python `str.splitlines()` restricted to `"\n"` separators (the only
newline convention this repository produces). -/
def pySplitlines (s : String) : List String :=
  if s = "" then []
  else
    let parts := s.splitOn "\n"
    if pyEndswith s "\n" then parts.dropLast else parts

/-- Python `list.insert(pos, x)` (clamps `pos` to the list length). -/
def listInsert : List String → Nat → String → List String
  | xs, 0, x => x :: xs
  | [], _ + 1, x => [x]
  | y :: ys, n + 1, x => y :: listInsert ys n x

/-- `FileOperations.add_text_to_file` (main.py lines 101-127).  The
`create_backup` default flag is the parameter `backupFlag`; the timestamp
used by the backup and the result of `random.randint(0, len(lines))` are
passed in as parameters.  Opening the file for writing truncates it, so a
`position` matching none of `"start"`, `"end"`, `"random"` leaves the file
empty; the function still returns `True`.  Any exception yields `False`. -/
def add_text_to_file (fs : FS) (file_path text position : String)
    (backupFlag : Bool) (timestamp : String) (insertPos : Nat) : FS × Bool :=
  let fs1 := if backupFlag then (create_backup fs file_path timestamp).1 else fs
  match fs1.read file_path with
  | none => (fs1, false)
  | some content =>
    let newContent :=
      if position = "start" then text ++ "\n" ++ content
      else if position = "end" then content ++ "\n" ++ text
      else if position = "random" then
        String.intercalate "\n" (listInsert (pySplitlines content) insertPos text)
      else ""
    (fs1.write file_path newContent, true)

/-- Reading a freshly written path yields the written content. -/
theorem FS.read_write_self (fs : FS) (p c : String) :
    (fs.write p c).read p = some c := by
  simp [FS.read, FS.write]

/-- The concrete filesystem used to evaluate the backup round trip: one
file `a.txt` with content `hi`. -/
def fsRT : FS := ⟨[("a.txt", "hi")]⟩

/-- C1: the claim says that `create_backup(p)` followed by `restore_backup`
on the returned backup path yields a file whose path equals the original
`p`.  The code violates this: with `p = "a.txt"` and timestamp
`20240101_120000`, the backup is `a.txt_20240101_120000.bak.cu` and the
restore strips only `.bak.cu`, copying the content to
`a.txt_20240101_120000`, which differs from `a.txt`.  The content is
preserved, the path is not: the round trip fails as the claim (and the
naming `original_path` in the code and its "Restored ... from backup" log)
intends. -/
theorem restore_backup_misses_original_path :
    (create_backup fsRT "a.txt" "20240101_120000").2
        = some "a.txt_20240101_120000.bak.cu"
  ∧ (restore_backup (create_backup fsRT "a.txt" "20240101_120000").1
        "a.txt_20240101_120000.bak.cu").2 = true
  ∧ FS.read (restore_backup (create_backup fsRT "a.txt" "20240101_120000").1
        "a.txt_20240101_120000.bak.cu").1 "a.txt_20240101_120000" = some "hi"
  ∧ ("a.txt_20240101_120000" : String) ≠ "a.txt" := by
  refine ⟨by decide, by decide, by decide, by decide⟩

/-- C9: with a `position` outside `{"start", "end", "random"}`,
`add_text_to_file` truncates the target file to empty content and still
returns `True`. -/
theorem add_text_invalid_position_truncates (fs : FS)
    (p text pos ts : String) (cb : Bool) (ip : Nat) (c : String)
    (hread : FS.read (if cb then (create_backup fs p ts).1 else fs) p = some c)
    (h1 : pos ≠ "start") (h2 : pos ≠ "end") (h3 : pos ≠ "random") :
    (add_text_to_file fs p text pos cb ts ip).2 = true
  ∧ FS.read (add_text_to_file fs p text pos cb ts ip).1 p = some "" := by
  simp only [add_text_to_file, hread, if_neg h1, if_neg h2, if_neg h3]
  exact ⟨trivial, FS.read_write_self _ p ""⟩

/-- C9 witness: the concrete position `"middle"` on a file `f.txt`
containing `abc` (no backup requested). -/
theorem add_text_invalid_position_truncates_witness :
    FS.read (if (false : Bool) then (create_backup ⟨[("f.txt", "abc")]⟩ "f.txt" "t").1
             else ⟨[("f.txt", "abc")]⟩) "f.txt" = some "abc"
  ∧ ("middle" : String) ≠ "start"
  ∧ ("middle" : String) ≠ "end"
  ∧ ("middle" : String) ≠ "random"
  ∧ ((add_text_to_file ⟨[("f.txt", "abc")]⟩ "f.txt" "x" "middle" false "t" 0).2 = true
     ∧ FS.read (add_text_to_file ⟨[("f.txt", "abc")]⟩ "f.txt" "x" "middle" false "t" 0).1
         "f.txt" = some "") := by
  refine ⟨by decide, by decide, by decide, by decide, ?_⟩
  exact add_text_invalid_position_truncates ⟨[("f.txt", "abc")]⟩ "f.txt" "x" "middle" "t"
    false 0 "abc" (by decide) (by decide) (by decide) (by decide)

/-- C10: `restore_backup` on a path that does not end in `.bak.cu` returns
`False` and performs no copy: the filesystem is returned unchanged. -/
theorem restore_backup_invalid_suffix (fs : FS) (bp : String)
    (h : pyEndswith bp BACKUP_EXTENSION = false) :
    restore_backup fs bp = (fs, false) := by
  simp [restore_backup, h]

/-- C10 witness: the concrete path `file.txt` on a one-file filesystem. -/
theorem restore_backup_invalid_suffix_witness :
    pyEndswith "file.txt" BACKUP_EXTENSION = false
  ∧ restore_backup ⟨[("file.txt", "data")]⟩ "file.txt"
      = (⟨[("file.txt", "data")]⟩, false) := by
  refine ⟨by decide, ?_⟩
  exact restore_backup_invalid_suffix ⟨[("file.txt", "data")]⟩ "file.txt" (by decide)

/-!
Part 2: the `FileProcessor` engine (main.py lines 35-96).

The pool is modelled as an interleaving small-step transition system.
Shared state is exactly what the Python object shares between threads:
the FIFO `file_queue` (a list, head = front; the `None` sentinel is
`Option.none`, an ordinary task is `Option.some`), the `running` flag,
the `workers` handle list, and the lock-guarded `progress` counter dict.
Each thread (worker, `add_task` caller, `stop_workers` caller) is reduced
to its program counter over its atomic actions; lock-protected counter
updates are single atomic steps, and executing a task itself touches no
modelled shared state, so executing a task and recording its result form
one step.
-/

/-- A Python value returned by the operation of a task (the leaf operations of
this repository return `bool`, `None` or `str`). -/
inductive PyVal
  | bool (b : Bool)
  | pynone
  | str (s : String)
deriving DecidableEq, Repr

/-- What happens when a worker invokes `func(*args, **kwargs)`
(main.py line 72): the call either returns a value or raises. -/
inductive Outcome
  | ret (v : PyVal)
  | raise
deriving DecidableEq, Repr

/-- A queued unit of work `(func, args, kwargs)`: the callable and its
arguments are abstracted by the outcome its invocation produces, plus an
identifier so distinct tasks can be told apart. -/
structure PTask where
  id : Nat
  outcome : Outcome
deriving DecidableEq, Repr

/-- The `self.progress` dict `{"total": .., "processed": .., "errors": ..}`
(main.py line 43). -/
structure Counters where
  total : Nat
  processed : Nat
  errors : Nat
deriving DecidableEq, Repr

/-- The `try`/`except` accounting of the worker body (main.py lines 70-78): a
normal return increments `processed`, a raised exception is logged and
increments `errors`.  The returned value itself is discarded. -/
def record : Outcome → Counters → Counters
  | .ret _, c => { c with processed := c.processed + 1 }
  | .raise, c => { c with errors := c.errors + 1 }

/-- The `add_task` counter update `self.progress["total"] += 1`
(main.py line 86). -/
def Counters.incTotal (c : Counters) : Counters :=
  { c with total := c.total + 1 }

/-- Program counter of one worker thread inside `_worker`
(main.py lines 63-80). -/
inductive WPc
  | checkRun            -- about to evaluate `while self.running`
  | getting             -- blocked in `self.file_queue.get()`
  | gotTask (t : PTask)  -- holding a dequeued task, about to run it
  | gotSent             -- dequeued the `None` sentinel, about to break
  | done                -- the thread has returned
deriving DecidableEq, Repr

/-- Program counter of one `add_task` caller (main.py lines 82-86): the
queue `put` and the locked `total` increment are two separate atomic
actions, in that order. -/
inductive APc
  | toEnq (t : PTask)    -- about to run `self.file_queue.put(task)`
  | toInc               -- put done, about to run `total += 1`
  | adone               -- `add_task` returned
deriving DecidableEq, Repr

/-- Program counter of the (single) `stop_workers` caller
(main.py lines 54-61). -/
inductive SPc
  | setFlag             -- about to run `self.running = False`
  | enqSent (k : Nat)   -- k sentinel `put(None)` calls still to make
  | sdone               -- all workers joined, `self.workers = []` done
deriving DecidableEq, Repr

/-- The shared state of one `FileProcessor` plus the program counter
of every thread.  `sentEnq` is a ghost counter of how many sentinels the stop
loop has enqueued so far. -/
structure SysState where
  queue : List (Option PTask)
  running : Bool
  workers : List WPc
  adders : List APc
  stopper : SPc
  sentEnq : Nat
  progress : Counters
deriving DecidableEq, Repr

/-- `get_progress` (main.py lines 88-91): an atomic, lock-guarded copy of
the counters. -/
def get_progress (s : SysState) : Counters :=
  s.progress

/-- One atomic action of some thread. -/
inductive Step : SysState → SysState → Prop
  | wCheckTrue (s : SysState) (l₁ l₂ : List WPc) :
      s.running = true → s.workers = l₁ ++ WPc.checkRun :: l₂ →
      Step s { s with workers := l₁ ++ WPc.getting :: l₂ }
  | wCheckFalse (s : SysState) (l₁ l₂ : List WPc) :
      s.running = false → s.workers = l₁ ++ WPc.checkRun :: l₂ →
      Step s { s with workers := l₁ ++ WPc.done :: l₂ }
  | wGetTask (s : SysState) (l₁ l₂ : List WPc) (t : PTask) (rest : List (Option PTask)) :
      s.workers = l₁ ++ WPc.getting :: l₂ → s.queue = some t :: rest →
      Step s { s with workers := l₁ ++ WPc.gotTask t :: l₂, queue := rest }
  | wGetSent (s : SysState) (l₁ l₂ : List WPc) (rest : List (Option PTask)) :
      s.workers = l₁ ++ WPc.getting :: l₂ → s.queue = none :: rest →
      Step s { s with workers := l₁ ++ WPc.gotSent :: l₂, queue := rest }
  | wSent (s : SysState) (l₁ l₂ : List WPc) :
      s.workers = l₁ ++ WPc.gotSent :: l₂ →
      Step s { s with workers := l₁ ++ WPc.done :: l₂ }
  | wExec (s : SysState) (l₁ l₂ : List WPc) (t : PTask) :
      s.workers = l₁ ++ WPc.gotTask t :: l₂ →
      Step s { s with workers := l₁ ++ WPc.checkRun :: l₂,
                      progress := record t.outcome s.progress }
  | aEnq (s : SysState) (l₁ l₂ : List APc) (t : PTask) :
      s.adders = l₁ ++ APc.toEnq t :: l₂ →
      Step s { s with adders := l₁ ++ APc.toInc :: l₂,
                      queue := s.queue ++ [some t] }
  | aInc (s : SysState) (l₁ l₂ : List APc) :
      s.adders = l₁ ++ APc.toInc :: l₂ →
      Step s { s with adders := l₁ ++ APc.adone :: l₂,
                      progress := s.progress.incTotal }
  | sSet (s : SysState) :
      s.stopper = SPc.setFlag →
      Step s { s with running := false,
                      stopper := SPc.enqSent s.workers.length }
  | sEnq (s : SysState) (k : Nat) :
      s.stopper = SPc.enqSent (k + 1) →
      Step s { s with queue := s.queue ++ [none],
                      stopper := SPc.enqSent k,
                      sentEnq := s.sentEnq + 1 }
  | sFin (s : SysState) :
      s.stopper = SPc.enqSent 0 → (∀ pc ∈ s.workers, pc = WPc.done) →
      Step s { s with workers := [], stopper := SPc.sdone }

/-- Number of genuine tasks (non-sentinels) in the queue. -/
def taskCount (q : List (Option PTask)) : Nat :=
  q.countP (fun i => i.isSome)

/-- Number of sentinels in the queue. -/
def sentinelCount (q : List (Option PTask)) : Nat :=
  q.countP (fun i => i.isNone)

/-- Number of workers currently holding a dequeued task. -/
def holdingCount (ws : List WPc) : Nat :=
  ws.countP (fun pc => match pc with | WPc.gotTask _ => true | _ => false)

/-- Number of workers currently blocked inside `queue.get()`. -/
def gettingCount (ws : List WPc) : Nat :=
  ws.countP (fun pc => match pc with | WPc.getting => true | _ => false)

/-- Number of `add_task` calls that have enqueued their task but have not
yet incremented `total`. -/
def midAdd (s : SysState) : Nat :=
  s.adders.countP (fun a => match a with | APc.toInc => true | _ => false)

/-- Number of completed `add_task` calls. -/
def doneAdders (s : SysState) : Nat :=
  s.adders.countP (fun a => match a with | APc.adone => true | _ => false)

/-- Counter accounting: every task is exactly one of (i) counted in
`processed`/`errors`, (ii) waiting in the queue, (iii) held by a worker,
and every `add_task` call has contributed to `total` unless it is still
between its `put` and its locked increment. -/
def Jinv (s : SysState) : Prop :=
  s.progress.processed + s.progress.errors + taskCount s.queue + holdingCount s.workers
    = s.progress.total + midAdd s

/-- `total` counts exactly the completed `add_task` calls. -/
def Tinv (s : SysState) : Prop :=
  s.progress.total = doneAdders s

/-- `record` never touches `total`. -/
theorem record_total (o : Outcome) (c : Counters) : (record o c).total = c.total := by
  cases o <;> rfl

/-- `record` adds exactly one to `processed + errors`. -/
theorem record_sum (o : Outcome) (c : Counters) :
    (record o c).processed + (record o c).errors = c.processed + c.errors + 1 := by
  cases o <;> simp [record] <;> omega

/-- Every atomic action preserves the counter-accounting invariant. -/
theorem Jinv_step {s t : SysState} (h : Step s t) (hJ : Jinv s) : Jinv t := by
  cases h with
  | wCheckTrue l1 l2 hr hw =>
    simp_all [Jinv, taskCount, holdingCount, midAdd, List.countP_append, List.countP_cons]
  | wCheckFalse l1 l2 hr hw =>
    simp_all [Jinv, taskCount, holdingCount, midAdd, List.countP_append, List.countP_cons]
  | wGetTask l1 l2 tk rest hw hq =>
    simp_all [Jinv, taskCount, holdingCount, midAdd, List.countP_append, List.countP_cons]
    omega
  | wGetSent l1 l2 rest hw hq =>
    simp_all [Jinv, taskCount, holdingCount, midAdd, List.countP_append, List.countP_cons]
  | wSent l1 l2 hw =>
    simp_all [Jinv, taskCount, holdingCount, midAdd, List.countP_append, List.countP_cons]
  | wExec l1 l2 tk hw =>
    have h1 := record_total tk.outcome s.progress
    have h2 := record_sum tk.outcome s.progress
    simp_all [Jinv, taskCount, holdingCount, midAdd, List.countP_append, List.countP_cons]
    omega
  | aEnq l1 l2 tk ha =>
    simp_all [Jinv, taskCount, holdingCount, midAdd, List.countP_append, List.countP_cons]
    omega
  | aInc l1 l2 ha =>
    simp_all [Jinv, Counters.incTotal, taskCount, holdingCount, midAdd,
      List.countP_append, List.countP_cons]
    omega
  | sSet hs =>
    simp_all [Jinv, taskCount, holdingCount, midAdd]
  | sEnq k hs =>
    simp_all [Jinv, taskCount, holdingCount, midAdd, List.countP_append, List.countP_cons]
  | sFin hs hall =>
    have h0 : holdingCount s.workers = 0 := by
      rw [holdingCount, List.countP_eq_zero]
      intro a ha
      simp [hall a ha]
    simp only [Jinv, midAdd, holdingCount, taskCount, List.countP_nil] at hJ h0 ⊢
    omega

/-- Every atomic action preserves `total = doneAdders`. -/
theorem Tinv_step {s t : SysState} (h : Step s t) (hT : Tinv s) : Tinv t := by
  cases h with
  | wCheckTrue l1 l2 hr hw => simp_all [Tinv, doneAdders]
  | wCheckFalse l1 l2 hr hw => simp_all [Tinv, doneAdders]
  | wGetTask l1 l2 tk rest hw hq => simp_all [Tinv, doneAdders]
  | wGetSent l1 l2 rest hw hq => simp_all [Tinv, doneAdders]
  | wSent l1 l2 hw => simp_all [Tinv, doneAdders]
  | wExec l1 l2 tk hw =>
    have h1 := record_total tk.outcome s.progress
    simp_all [Tinv, doneAdders]
  | aEnq l1 l2 tk ha =>
    simp_all [Tinv, doneAdders, List.countP_append, List.countP_cons]
  | aInc l1 l2 ha =>
    simp_all [Tinv, Counters.incTotal, doneAdders, List.countP_append, List.countP_cons]
    omega
  | sSet hs => simp_all [Tinv, doneAdders]
  | sEnq k hs => simp_all [Tinv, doneAdders]
  | sFin hs hall => simp_all [Tinv, doneAdders]

/-- Every atomic action preserves the number of `add_task` caller threads. -/
theorem adders_length_step {s t : SysState} (h : Step s t) :
    t.adders.length = s.adders.length := by
  cases h <;> simp_all

/-- The accounting invariant holds in every state reachable from a state
satisfying it. -/
theorem Jinv_reach {s t : SysState} (hR : Relation.ReflTransGen Step s t)
    (hJ : Jinv s) : Jinv t := by
  induction hR with
  | refl => exact hJ
  | tail _ hstep ih => exact Jinv_step hstep ih

/-- `Tinv` holds in every state reachable from a state satisfying it. -/
theorem Tinv_reach {s t : SysState} (hR : Relation.ReflTransGen Step s t)
    (hT : Tinv s) : Tinv t := by
  induction hR with
  | refl => exact hT
  | tail _ hstep ih => exact Tinv_step hstep ih

/-- The adder-thread count is constant along every execution. -/
theorem adders_length_reach {s t : SysState} (hR : Relation.ReflTransGen Step s t) :
    t.adders.length = s.adders.length := by
  induction hR with
  | refl => rfl
  | tail _ hstep ih => rw [adders_length_step hstep, ih]

/-- C2 counterexample: the claim says a falsy return (`False`/`None`) has
the same counter effect as a raised exception (errors incremented,
processed not).  In the code the worker ignores the return value of
`func(*args, **kwargs)`: a task returning `False` increments `processed`,
while only a raise increments `errors`, so the two effects differ. -/
theorem falsy_return_counts_processed :
    record (Outcome.ret (PyVal.bool false)) ⟨0, 0, 0⟩ = ⟨0, 1, 0⟩
  ∧ record Outcome.raise ⟨0, 0, 0⟩ = ⟨0, 0, 1⟩
  ∧ (⟨0, 1, 0⟩ : Counters) ≠ ⟨0, 0, 1⟩ :=
  ⟨rfl, rfl, by decide⟩

/-- C2 amended: for a worker holding a dequeued task, the execution step
increments `processed` whenever the operation returns (any value, falsy
values such as `False` and `None` included) and increments `errors`
exactly when it raises; `total` is untouched either way. -/
theorem worker_records_result (s : SysState) (l1 l2 : List WPc) (tk : PTask)
    (hw : s.workers = l1 ++ WPc.gotTask tk :: l2) :
    Step s { s with workers := l1 ++ WPc.checkRun :: l2,
                    progress := record tk.outcome s.progress }
  ∧ (∀ v, record (Outcome.ret v) s.progress
        = { s.progress with processed := s.progress.processed + 1 })
  ∧ record Outcome.raise s.progress
      = { s.progress with errors := s.progress.errors + 1 } :=
  ⟨Step.wExec s l1 l2 tk hw, fun _ => rfl, rfl⟩

/-- The task used by the concrete executions below: its operation returns
`True`. -/
def tkA : PTask := ⟨1, Outcome.ret (PyVal.bool true)⟩

/-- C2 witness: a one-worker state holding `tkA`. -/
theorem worker_records_result_witness :
    (⟨[], true, [WPc.gotTask tkA], [], SPc.setFlag, 0, ⟨0, 0, 0⟩⟩ : SysState).workers
        = [] ++ WPc.gotTask tkA :: []
  ∧ (Step (⟨[], true, [WPc.gotTask tkA], [], SPc.setFlag, 0, ⟨0, 0, 0⟩⟩ : SysState)
        { (⟨[], true, [WPc.gotTask tkA], [], SPc.setFlag, 0, ⟨0, 0, 0⟩⟩ : SysState) with
            workers := [] ++ WPc.checkRun :: [],
            progress := record tkA.outcome ⟨0, 0, 0⟩ }
     ∧ (∀ v, record (Outcome.ret v) (⟨0, 0, 0⟩ : Counters)
           = { (⟨0, 0, 0⟩ : Counters) with processed := 0 + 1 })
     ∧ record Outcome.raise (⟨0, 0, 0⟩ : Counters)
         = { (⟨0, 0, 0⟩ : Counters) with errors := 0 + 1 }) :=
  ⟨rfl, worker_records_result ⟨[], true, [WPc.gotTask tkA], [], SPc.setFlag, 0, ⟨0, 0, 0⟩⟩
      [] [] tkA rfl⟩

/-!
Sequential projection of `_worker` (main.py lines 63-80) for a pool of
exactly one worker whose `running` flag stays `True`: the single worker
repeatedly takes the front item of the queue, breaks on the sentinel, runs the
task and records the result.  `workerLoop` returns the final counters
(an empty queue leaves the worker blocked in `get()`, with no further
counter changes); `execOrder` lists the ids of the executed tasks in
execution order.
-/

def workerLoop : List (Option PTask) → Counters → Counters
  | [], c => c
  | none :: _, c => c
  | some t :: rest, c => workerLoop rest (record t.outcome c)

def execOrder : List (Option PTask) → List Nat
  | [] => []
  | none :: _ => []
  | some t :: rest => t.id :: execOrder rest

/-- C7: a failing task is absorbed: the worker keeps dequeuing (running
any task is one loop iteration followed by the rest of the queue), and a
queue of tasks followed by a sentinel is processed to the end, every
returning task counted in `processed`, every raising task in `errors`,
`total` untouched; so failures never kill the worker and are observable
only through the counters. -/
theorem failing_task_contained (ts : List PTask) (rest : List (Option PTask))
    (c : Counters) :
    workerLoop (List.map some ts ++ none :: rest) c
      = ⟨c.total,
         c.processed + ts.countP (fun t => match t.outcome with
           | Outcome.ret _ => true | _ => false),
         c.errors + ts.countP (fun t => match t.outcome with
           | Outcome.raise => true | _ => false)⟩
  ∧ ∀ (tk : PTask) (q : List (Option PTask)) (c2 : Counters),
      workerLoop (some tk :: q) c2 = workerLoop q (record tk.outcome c2) := by
  constructor
  · induction ts generalizing c with
    | nil => simp [workerLoop]
    | cons hd tl ih =>
      cases ho : hd.outcome with
      | ret v =>
        simp [workerLoop, record, ho, ih, List.countP_cons, Counters.mk.injEq]
        omega
      | raise =>
        simp [workerLoop, record, ho, ih, List.countP_cons, Counters.mk.injEq]
        omega
  · intro tk q c2
    rfl

/-- The executed ids of a task run followed by a sentinel are exactly the
queued ids, in queue order. -/
theorem execOrder_map_some (ts : List PTask) (rest : List (Option PTask)) :
    execOrder (List.map some ts ++ none :: rest) = List.map PTask.id ts := by
  induction ts with
  | nil => simp [execOrder]
  | cons hd tl ih => simp [execOrder, ih]

/-- C8: with a single worker the tasks before the sentinel are executed in
FIFO queue order: the execution sequence equals the enqueue sequence, and
for queue positions `i < j` the task enqueued at `i` occupies execution
slot `i`, strictly before slot `j` of the task enqueued at `j` (the loop
finishes one task before dequeuing the next). -/
theorem fifo_single_worker (ts : List PTask) (rest : List (Option PTask))
    (i j : Nat) (hij : i < j) (hj : j < ts.length) :
    execOrder (List.map some ts ++ none :: rest) = List.map PTask.id ts
  ∧ (execOrder (List.map some ts ++ none :: rest))[i]?
      = some (ts.get ⟨i, Nat.lt_trans hij hj⟩).id
  ∧ (execOrder (List.map some ts ++ none :: rest))[j]?
      = some (ts.get ⟨j, hj⟩).id := by
  refine ⟨execOrder_map_some ts rest, ?_, ?_⟩
  · rw [execOrder_map_some, List.getElem?_map,
      List.getElem?_eq_getElem (Nat.lt_trans hij hj)]
    simp [List.get_eq_getElem]
  · rw [execOrder_map_some, List.getElem?_map, List.getElem?_eq_getElem hj]
    simp [List.get_eq_getElem]

/-- C8 witness: two concrete tasks, slots 0 and 1. -/
theorem fifo_single_worker_witness :
    (0 : Nat) < 1
  ∧ 1 < List.length [(⟨1, Outcome.ret (PyVal.bool true)⟩ : PTask), ⟨2, Outcome.raise⟩]
  ∧ (execOrder (List.map some
        [(⟨1, Outcome.ret (PyVal.bool true)⟩ : PTask), ⟨2, Outcome.raise⟩] ++ none :: [])
      = List.map PTask.id
          [(⟨1, Outcome.ret (PyVal.bool true)⟩ : PTask), ⟨2, Outcome.raise⟩]
     ∧ (execOrder (List.map some
          [(⟨1, Outcome.ret (PyVal.bool true)⟩ : PTask), ⟨2, Outcome.raise⟩]
            ++ none :: []))[0]? = some 1
     ∧ (execOrder (List.map some
          [(⟨1, Outcome.ret (PyVal.bool true)⟩ : PTask), ⟨2, Outcome.raise⟩]
            ++ none :: []))[1]? = some 2) :=
  ⟨by decide, by decide,
    fifo_single_worker [⟨1, Outcome.ret (PyVal.bool true)⟩, ⟨2, Outcome.raise⟩] []
      0 1 (by decide) (by decide)⟩

/-!
A concrete execution of a fresh pool with one worker and one `add_task`
caller: the `put` of the caller lands first, the worker races through dequeue
and execution before the `total += 1` of the caller runs.
-/

def ts0 : SysState := ⟨[], true, [WPc.checkRun], [APc.toEnq tkA], SPc.setFlag, 0, ⟨0, 0, 0⟩⟩

def ts1 : SysState := ⟨[some tkA], true, [WPc.checkRun], [APc.toInc], SPc.setFlag, 0, ⟨0, 0, 0⟩⟩

def ts2 : SysState := ⟨[some tkA], true, [WPc.getting], [APc.toInc], SPc.setFlag, 0, ⟨0, 0, 0⟩⟩

def ts3 : SysState := ⟨[], true, [WPc.gotTask tkA], [APc.toInc], SPc.setFlag, 0, ⟨0, 0, 0⟩⟩

def ts4 : SysState := ⟨[], true, [WPc.checkRun], [APc.toInc], SPc.setFlag, 0, ⟨0, 1, 0⟩⟩

def ts5 : SysState := ⟨[], true, [WPc.checkRun], [APc.adone], SPc.setFlag, 0, ⟨1, 1, 0⟩⟩

theorem step_ts0_ts1 : Step ts0 ts1 := Step.aEnq ts0 [] [] tkA rfl

theorem step_ts1_ts2 : Step ts1 ts2 := Step.wCheckTrue ts1 [] [] rfl rfl

theorem step_ts2_ts3 : Step ts2 ts3 := Step.wGetTask ts2 [] [] tkA [] rfl rfl

theorem step_ts3_ts4 : Step ts3 ts4 := Step.wExec ts3 [] [] tkA rfl

theorem step_ts4_ts5 : Step ts4 ts5 := Step.aInc ts4 [] [] rfl

theorem trace_ts0_ts4 : Relation.ReflTransGen Step ts0 ts4 :=
  (((Relation.ReflTransGen.refl.tail step_ts0_ts1).tail step_ts1_ts2).tail
      step_ts2_ts3).tail step_ts3_ts4

theorem trace_ts0_ts5 : Relation.ReflTransGen Step ts0 ts5 :=
  trace_ts0_ts4.tail step_ts4_ts5

/-- C4 counterexample: the claim says no `get_progress` snapshot ever has
`processed + errors > total`.  Because `add_task` enqueues the task before
incrementing `total`, the interleaving `put`, worker dequeue, worker
execution reaches state `ts4`, whose atomic snapshot has `processed = 1`
and `total = 0`. -/
theorem progress_snapshot_exceeds_total :
    Relation.ReflTransGen Step ts0 ts4
  ∧ (get_progress ts4).processed + (get_progress ts4).errors > (get_progress ts4).total :=
  ⟨trace_ts0_ts4, by decide⟩

/-- C4 amended: every `get_progress` value is an atomic copy of the
counters, and `processed + errors` can exceed `total` only by the number
of `add_task` calls sitting between their `put` and their locked `total`
increment; in particular any snapshot taken while no `add_task` call is
in that window satisfies `processed + errors ≤ total`. -/
theorem progress_snapshot_bound (s t : SysState) (hJ : Jinv s)
    (hR : Relation.ReflTransGen Step s t) :
    get_progress t = t.progress
  ∧ (get_progress t).processed + (get_progress t).errors
      ≤ (get_progress t).total + midAdd t
  ∧ (midAdd t = 0 →
      (get_progress t).processed + (get_progress t).errors ≤ (get_progress t).total) := by
  have hJt := Jinv_reach hR hJ
  simp only [Jinv] at hJt
  refine ⟨rfl, by simp only [get_progress]; omega, fun h0 => ?_⟩
  simp only [get_progress]
  omega

/-- C4 witness: the theorem applied to the quiescent end state `ts5`. -/
theorem progress_snapshot_bound_witness :
    Jinv ts5
  ∧ (get_progress ts5 = ts5.progress
     ∧ (get_progress ts5).processed + (get_progress ts5).errors
         ≤ (get_progress ts5).total + midAdd ts5
     ∧ (midAdd ts5 = 0 →
         (get_progress ts5).processed + (get_progress ts5).errors
           ≤ (get_progress ts5).total)) :=
  ⟨by unfold Jinv taskCount holdingCount midAdd; decide,
   progress_snapshot_bound ts5 ts5
     (by unfold Jinv taskCount holdingCount midAdd; decide) Relation.ReflTransGen.refl⟩

/-- No tasks in flight and every `add_task` call finished: all enqueued
tasks have been dequeued and completed. -/
def quiescent (s : SysState) : Prop :=
  (∀ a ∈ s.adders, a = APc.adone)
  ∧ taskCount s.queue = 0 ∧ holdingCount s.workers = 0

/-- In a list of fresh `add_task` callers nothing is yet mid-increment. -/
theorem midAdd_map_toEnq (os : List PTask) :
    (os.map APc.toEnq).countP
      (fun a => match a with | APc.toInc => true | _ => false) = 0 := by
  rw [List.countP_eq_zero]
  intro a ha
  obtain ⟨x, _, rfl⟩ := List.mem_map.mp ha
  simp

/-- In a list of fresh `add_task` callers nothing is yet finished. -/
theorem doneAdders_map_toEnq (os : List PTask) :
    (os.map APc.toEnq).countP
      (fun a => match a with | APc.adone => true | _ => false) = 0 := by
  rw [List.countP_eq_zero]
  intro a ha
  obtain ⟨x, _, rfl⟩ := List.mem_map.mp ha
  simp

/-- C5: starting from a freshly reset pool (zero counters, empty queue, no
worker holding a task) with `N` pending `add_task` calls, every reachable
quiescent state satisfies `total = N` and `processed + errors = N`. -/
theorem counters_balance_at_quiescence (os : List PTask) (s t : SysState)
    (hq0 : s.queue = []) (ha0 : s.adders = os.map APc.toEnq)
    (hp0 : s.progress = ⟨0, 0, 0⟩) (hw0 : holdingCount s.workers = 0)
    (hR : Relation.ReflTransGen Step s t) (hq : quiescent t) :
    t.progress.total = os.length
  ∧ t.progress.processed + t.progress.errors = os.length := by
  have hJ : Jinv s := by
    simp only [Jinv, hq0, ha0, hp0, taskCount, midAdd, List.countP_nil,
      midAdd_map_toEnq, hw0]
  have hT : Tinv s := by
    simp only [Tinv, hp0, doneAdders, ha0, doneAdders_map_toEnq]
  have hJt := Jinv_reach hR hJ
  have hTt := Tinv_reach hR hT
  have hlen : t.adders.length = os.length := by
    rw [adders_length_reach hR, ha0, List.length_map]
  have hdone : doneAdders t = t.adders.length := by
    rw [doneAdders, List.countP_eq_length]
    intro a ha
    simp [hq.1 a ha]
  have htot : t.progress.total = os.length := by
    rw [Tinv] at hTt
    omega
  have hmid : midAdd t = 0 := by
    rw [midAdd, List.countP_eq_zero]
    intro a ha
    simp [hq.1 a ha]
  refine ⟨htot, ?_⟩
  rw [Jinv] at hJt
  have h1 := hq.2.1
  have h2 := hq.2.2
  omega

/-- C5 witness: the concrete one-task execution `ts0` to `ts5`. -/
theorem counters_balance_at_quiescence_witness :
    ts0.queue = []
  ∧ ts0.adders = [tkA].map APc.toEnq
  ∧ ts0.progress = ⟨0, 0, 0⟩
  ∧ holdingCount ts0.workers = 0
  ∧ quiescent ts5
  ∧ (ts5.progress.total = [tkA].length
     ∧ ts5.progress.processed + ts5.progress.errors = [tkA].length) :=
  ⟨rfl, rfl, rfl, by unfold holdingCount; decide,
   by unfold quiescent taskCount holdingCount; decide,
   counters_balance_at_quiescence [tkA] ts0 ts5 rfl rfl rfl
     (by unfold holdingCount; decide) trace_ts0_ts5
     (by unfold quiescent taskCount holdingCount; decide)⟩

/-!
A concrete execution showing what `stop_workers` does to a pending task:
one worker, one already-added task, then `stop()`.  The worker re-checks
`self.running` at the top of its loop, sees `False`, and exits without
ever dequeuing the pending task or its sentinel.
-/

def tkB : PTask := ⟨2, Outcome.ret (PyVal.bool true)⟩

def us0 : SysState := ⟨[some tkB], true, [WPc.checkRun], [], SPc.setFlag, 0, ⟨1, 0, 0⟩⟩

def us1 : SysState := ⟨[some tkB], false, [WPc.checkRun], [], SPc.enqSent 1, 0, ⟨1, 0, 0⟩⟩

def us2 : SysState :=
  ⟨[some tkB, none], false, [WPc.checkRun], [], SPc.enqSent 0, 1, ⟨1, 0, 0⟩⟩

def us3 : SysState :=
  ⟨[some tkB, none], false, [WPc.done], [], SPc.enqSent 0, 1, ⟨1, 0, 0⟩⟩

def us4 : SysState := ⟨[some tkB, none], false, [], [], SPc.sdone, 1, ⟨1, 0, 0⟩⟩

theorem step_us0_us1 : Step us0 us1 := Step.sSet us0 rfl

theorem step_us1_us2 : Step us1 us2 := Step.sEnq us1 0 rfl

theorem step_us2_us3 : Step us2 us3 := Step.wCheckFalse us2 [] [] rfl rfl

theorem step_us3_us4 : Step us3 us4 := Step.sFin us3 rfl (by decide)

theorem trace_us0_us4 : Relation.ReflTransGen Step us0 us4 :=
  (((Relation.ReflTransGen.refl.tail step_us0_us1).tail step_us1_us2).tail
      step_us2_us3).tail step_us3_us4

/-- C3 counterexample: the claim says every task enqueued before the
sentinels is still dequeued and executed before the workers exit.  From
`us0` (one worker at the top of its loop, one pending task, `stop()`
invoked) the execution reaches `us4`, where the whole pool has shut down
(no step remains), yet the pending task is still in the queue, nothing was
processed, and the worker exited without ever reaching its sentinel. -/
theorem stop_skips_pending_task :
    Relation.ReflTransGen Step us0 us4
  ∧ us4.workers = []
  ∧ us4.queue = [some tkB, none]
  ∧ us4.progress.processed + us4.progress.errors = 0
  ∧ ∀ u, ¬ Step us4 u := by
  refine ⟨trace_us0_us4, rfl, rfl, rfl, ?_⟩
  intro u h
  cases h <;> simp_all [us4]

/-- Indexing around the middle element of `l1 ++ x :: l2`: a position is
either exactly `l1.length` (where the middle sits) or reads the same in
`l1 ++ x :: l2` and `l1 ++ y :: l2`. -/
theorem getElem?_append_middle {α : Type} (l1 l2 : List α) (x y : α) (i : Nat) :
    (i ≠ l1.length ∧ (l1 ++ x :: l2)[i]? = (l1 ++ y :: l2)[i]?)
  ∨ (i = l1.length ∧ (l1 ++ x :: l2)[i]? = some x ∧ (l1 ++ y :: l2)[i]? = some y) := by
  rcases Nat.lt_trichotomy i l1.length with h | h | h
  · exact Or.inl ⟨Nat.ne_of_lt h, by rw [List.getElem?_append_left h, List.getElem?_append_left h]⟩
  · subst h
    refine Or.inr ⟨rfl, ?_, ?_⟩
    · rw [List.getElem?_append_right (Nat.le_refl _)]
      simp
    · rw [List.getElem?_append_right (Nat.le_refl _)]
      simp
  · refine Or.inl ⟨(Nat.ne_of_lt h).symm, ?_⟩
    rw [List.getElem?_append_right (Nat.le_of_lt h),
      List.getElem?_append_right (Nat.le_of_lt h)]
    have hk : i - l1.length = (i - l1.length - 1) + 1 := by omega
    rw [hk]
    simp

/-- C3 amended: after `stop()` a worker finishes the task it already holds
(execution is never interrupted; the `wExec` step always completes it),
but exits as soon as it next observes `running = False` at the top of its
loop, which may be before its sentinel: a worker becomes `done` in one
step only from the loop check with `running = False` or from having
dequeued a sentinel, so pre-sentinel tasks may be left unexecuted. -/
theorem worker_exits_only_flag_or_sentinel (s t : SysState) (i : Nat) (h : Step s t)
    (hne : s.workers[i]? ≠ some WPc.done) (hd : t.workers[i]? = some WPc.done) :
    (s.workers[i]? = some WPc.checkRun ∧ s.running = false)
  ∨ s.workers[i]? = some WPc.gotSent := by
  cases h with
  | wCheckTrue l1 l2 hr hw =>
    dsimp only at hd
    rcases getElem?_append_middle l1 l2 WPc.checkRun WPc.getting i with
      ⟨_, heq⟩ | ⟨_, _, h2⟩
    · rw [hw] at hne
      rw [← heq] at hd
      exact absurd hd hne
    · rw [h2] at hd
      simp at hd
  | wCheckFalse l1 l2 hr hw =>
    dsimp only at hd
    rcases getElem?_append_middle l1 l2 WPc.checkRun WPc.done i with
      ⟨_, heq⟩ | ⟨_, h1, _⟩
    · rw [hw] at hne
      rw [← heq] at hd
      exact absurd hd hne
    · exact Or.inl ⟨by rw [hw]; exact h1, hr⟩
  | wGetTask l1 l2 tk rest hw hq =>
    dsimp only at hd
    rcases getElem?_append_middle l1 l2 WPc.getting (WPc.gotTask tk) i with
      ⟨_, heq⟩ | ⟨_, _, h2⟩
    · rw [hw] at hne
      rw [← heq] at hd
      exact absurd hd hne
    · rw [h2] at hd
      simp at hd
  | wGetSent l1 l2 rest hw hq =>
    dsimp only at hd
    rcases getElem?_append_middle l1 l2 WPc.getting WPc.gotSent i with
      ⟨_, heq⟩ | ⟨_, _, h2⟩
    · rw [hw] at hne
      rw [← heq] at hd
      exact absurd hd hne
    · rw [h2] at hd
      simp at hd
  | wSent l1 l2 hw =>
    dsimp only at hd
    rcases getElem?_append_middle l1 l2 WPc.gotSent WPc.done i with
      ⟨_, heq⟩ | ⟨_, h1, _⟩
    · rw [hw] at hne
      rw [← heq] at hd
      exact absurd hd hne
    · exact Or.inr (by rw [hw]; exact h1)
  | wExec l1 l2 tk hw =>
    dsimp only at hd
    rcases getElem?_append_middle l1 l2 (WPc.gotTask tk) WPc.checkRun i with
      ⟨_, heq⟩ | ⟨_, _, h2⟩
    · rw [hw] at hne
      rw [← heq] at hd
      exact absurd hd hne
    · rw [h2] at hd
      simp at hd
  | aEnq l1 l2 tk ha =>
    dsimp only at hd
    exact absurd hd hne
  | aInc l1 l2 ha =>
    dsimp only at hd
    exact absurd hd hne
  | sSet hs =>
    dsimp only at hd
    exact absurd hd hne
  | sEnq k hs =>
    dsimp only at hd
    exact absurd hd hne
  | sFin hs hall =>
    dsimp only at hd
    simp at hd

/-- C3 amendment witness: the concrete exit step `us2` to `us3`. -/
theorem worker_exits_only_flag_or_sentinel_witness :
    Step us2 us3
  ∧ us2.workers[0]? ≠ some WPc.done
  ∧ us3.workers[0]? = some WPc.done
  ∧ ((us2.workers[0]? = some WPc.checkRun ∧ us2.running = false)
     ∨ us2.workers[0]? = some WPc.gotSent) :=
  ⟨step_us2_us3, by decide, by decide,
   worker_exits_only_flag_or_sentinel us2 us3 0 step_us2_us3 (by decide) (by decide)⟩

/-!
Termination of `stop_workers` (main.py lines 54-61).  A weight on the program
counter of every thread plus the queue length strictly decreases on
every atomic action, so no execution of the whole system is infinite;
an invariant then shows that a state with no enabled action must have
every worker terminated, the stop call finished (all joins returned,
handle list cleared) and exactly one sentinel enqueued per worker that
was tracked when `stop_workers` was called.
-/

def wWeight (running : Bool) : WPc → Nat
  | WPc.done => 0
  | WPc.gotSent => 1
  | WPc.getting => 2
  | WPc.gotTask _ => 4
  | WPc.checkRun => if running then 3 else 1

def aWeight : APc → Nat
  | APc.toEnq _ => 5
  | APc.toInc => 1
  | APc.adone => 0

def sWeight : SPc → Nat → Nat
  | SPc.setFlag, n => 4 * n + 2
  | SPc.enqSent k, _ => 4 * k + 1
  | SPc.sdone, _ => 0

def sysMeasure (s : SysState) : Nat :=
  (s.workers.map (wWeight s.running)).sum + 3 * s.queue.length
    + (s.adders.map aWeight).sum + sWeight s.stopper s.workers.length

theorem sum_map_middle {α : Type} (w : α → Nat) (l1 l2 : List α) (x : α) :
    ((l1 ++ x :: l2).map w).sum = (l1.map w).sum + w x + (l2.map w).sum := by
  simp [List.map_append, List.sum_append]
  omega

theorem countP_middle {α : Type} (p : α → Bool) (l1 l2 : List α) (x : α) :
    (l1 ++ x :: l2).countP p
      = l1.countP p + (if p x then 1 else 0) + l2.countP p := by
  simp [List.countP_append, List.countP_cons]
  omega

theorem wWeight_false_le (r : Bool) (pc : WPc) : wWeight false pc ≤ wWeight r pc := by
  cases r
  · exact Nat.le_refl _
  · cases pc <;> simp [wWeight]

theorem sum_wWeight_false_le (r : Bool) (ws : List WPc) :
    (ws.map (wWeight false)).sum ≤ (ws.map (wWeight r)).sum := by
  induction ws with
  | nil => exact Nat.le_refl _
  | cons hd tl ih =>
    simp only [List.map_cons, List.sum_cons]
    exact Nat.add_le_add (wWeight_false_le r hd) ih

theorem sum_done_zero (r : Bool) (ws : List WPc)
    (h : ∀ pc ∈ ws, pc = WPc.done) : (ws.map (wWeight r)).sum = 0 := by
  induction ws with
  | nil => rfl
  | cons hd tl ih =>
    have h1 : hd = WPc.done := h hd (List.mem_cons_self hd tl)
    have h2 : (tl.map (wWeight r)).sum = 0 :=
      ih (fun pc hpc => h pc (List.mem_cons_of_mem hd hpc))
    simp [h1, h2, wWeight]

/-- Every atomic action strictly decreases the system measure. -/
theorem sysMeasure_step {s t : SysState} (h : Step s t) :
    sysMeasure t < sysMeasure s := by
  cases h with
  | wCheckTrue l1 l2 hr hw =>
    simp only [sysMeasure, hw, hr, sum_map_middle, List.length_append,
      List.length_cons, wWeight]
    simp
  | wCheckFalse l1 l2 hr hw =>
    simp only [sysMeasure, hw, hr, sum_map_middle, List.length_append,
      List.length_cons, wWeight]
    simp
  | wGetTask l1 l2 tk rest hw hq =>
    simp only [sysMeasure, hw, hq, sum_map_middle, List.length_append,
      List.length_cons, wWeight]
    omega
  | wGetSent l1 l2 rest hw hq =>
    simp only [sysMeasure, hw, hq, sum_map_middle, List.length_append,
      List.length_cons, wWeight]
    omega
  | wSent l1 l2 hw =>
    simp only [sysMeasure, hw, sum_map_middle, List.length_append,
      List.length_cons, wWeight]
    simp
  | wExec l1 l2 tk hw =>
    have hcr : wWeight s.running WPc.checkRun ≤ 3 := by
      cases hr : s.running <;> simp [wWeight]
    have h4 : wWeight s.running (WPc.gotTask tk) = 4 := rfl
    simp only [sysMeasure, hw, sum_map_middle, List.length_append,
      List.length_cons, h4]
    omega
  | aEnq l1 l2 tk ha =>
    simp only [sysMeasure, ha, sum_map_middle, List.length_append,
      List.length_cons, aWeight]
    simp
    omega
  | aInc l1 l2 ha =>
    simp only [sysMeasure, ha, sum_map_middle, aWeight]
    simp
  | sSet hs =>
    have hble := sum_wWeight_false_le s.running s.workers
    simp only [sysMeasure, hs, sWeight]
    omega
  | sEnq k hs =>
    simp only [sysMeasure, hs, sWeight, List.length_append, List.length_cons]
    simp
    omega
  | sFin hs hall =>
    have h0 := sum_done_zero s.running s.workers hall
    simp only [sysMeasure, hs, sWeight]
    simp [h0]

/-- No execution of the system is infinite: the measure is a strictly
decreasing natural number. -/
theorem no_infinite_execution (f : ℕ → SysState)
    (hsteps : ∀ n, Step (f n) (f (n + 1))) : False := by
  have hmono : ∀ n, sysMeasure (f n) + n ≤ sysMeasure (f 0) := by
    intro n
    induction n with
    | zero => omega
    | succ n ih =>
      have hd := sysMeasure_step (hsteps n)
      omega
  have h := hmono (sysMeasure (f 0) + 1)
  omega

/-- The stop-phase invariant, relative to `W`, the number of worker
handles tracked when `stop_workers` was called: before the flag is set
nothing has been enqueued; while the sentinel loop runs, `running` is
`False`, the enqueued and remaining sentinels add up to `W`, and every
worker blocked in `get()` has a sentinel (or remaining enqueue) to wake
it; after the joins the handle list is cleared and exactly `W` sentinels
were enqueued. -/
def CInv (W : Nat) (s : SysState) : Prop :=
  (s.stopper = SPc.setFlag → s.sentEnq = 0 ∧ s.workers.length = W)
  ∧ (∀ k, s.stopper = SPc.enqSent k → s.running = false ∧ s.sentEnq + k = W
      ∧ s.workers.length = W
      ∧ gettingCount s.workers ≤ sentinelCount s.queue + k)
  ∧ (s.stopper = SPc.sdone → s.sentEnq = W ∧ s.workers = [])

/-- Every atomic action preserves the stop-phase invariant. -/
theorem CInv_step {W : Nat} {s t : SysState} (h : Step s t) (hC : CInv W s) :
    CInv W t := by
  obtain ⟨hSet, hEnq, hDone⟩ := hC
  cases h with
  | wCheckTrue l1 l2 hr hw =>
    refine ⟨?_, ?_, ?_⟩
    · intro hk
      obtain ⟨h1, h2⟩ := hSet hk
      refine ⟨h1, ?_⟩
      simp [hw] at h2 ⊢
      omega
    · intro k hk
      obtain ⟨h1, _, _, _⟩ := hEnq k hk
      rw [hr] at h1
      simp at h1
    · intro hk
      obtain ⟨_, h2⟩ := hDone hk
      rw [h2] at hw
      simp at hw
  | wCheckFalse l1 l2 hr hw =>
    refine ⟨?_, ?_, ?_⟩
    · intro hk
      obtain ⟨h1, h2⟩ := hSet hk
      refine ⟨h1, ?_⟩
      simp [hw] at h2 ⊢
      omega
    · intro k hk
      obtain ⟨h1, h2, h3, h4⟩ := hEnq k hk
      rw [hw, gettingCount, countP_middle] at h4
      refine ⟨h1, h2, ?_, ?_⟩
      · simp [hw] at h3 ⊢
        omega
      · rw [gettingCount, countP_middle]
        simp at h4 ⊢
        omega
    · intro hk
      obtain ⟨_, h2⟩ := hDone hk
      rw [h2] at hw
      simp at hw
  | wGetTask l1 l2 tk rest hw hq =>
    refine ⟨?_, ?_, ?_⟩
    · intro hk
      obtain ⟨h1, h2⟩ := hSet hk
      refine ⟨h1, ?_⟩
      simp [hw] at h2 ⊢
      omega
    · intro k hk
      obtain ⟨h1, h2, h3, h4⟩ := hEnq k hk
      rw [hw, gettingCount, countP_middle] at h4
      rw [hq, sentinelCount, List.countP_cons] at h4
      refine ⟨h1, h2, ?_, ?_⟩
      · simp [hw] at h3 ⊢
        omega
      · rw [gettingCount, countP_middle, sentinelCount]
        simp at h4 ⊢
        omega
    · intro hk
      obtain ⟨_, h2⟩ := hDone hk
      rw [h2] at hw
      simp at hw
  | wGetSent l1 l2 rest hw hq =>
    refine ⟨?_, ?_, ?_⟩
    · intro hk
      obtain ⟨h1, h2⟩ := hSet hk
      refine ⟨h1, ?_⟩
      simp [hw] at h2 ⊢
      omega
    · intro k hk
      obtain ⟨h1, h2, h3, h4⟩ := hEnq k hk
      rw [hw, gettingCount, countP_middle] at h4
      rw [hq, sentinelCount, List.countP_cons] at h4
      refine ⟨h1, h2, ?_, ?_⟩
      · simp [hw] at h3 ⊢
        omega
      · rw [gettingCount, countP_middle, sentinelCount]
        simp at h4 ⊢
        omega
    · intro hk
      obtain ⟨_, h2⟩ := hDone hk
      rw [h2] at hw
      simp at hw
  | wSent l1 l2 hw =>
    refine ⟨?_, ?_, ?_⟩
    · intro hk
      obtain ⟨h1, h2⟩ := hSet hk
      refine ⟨h1, ?_⟩
      simp [hw] at h2 ⊢
      omega
    · intro k hk
      obtain ⟨h1, h2, h3, h4⟩ := hEnq k hk
      rw [hw, gettingCount, countP_middle] at h4
      refine ⟨h1, h2, ?_, ?_⟩
      · simp [hw] at h3 ⊢
        omega
      · rw [gettingCount, countP_middle]
        simp at h4 ⊢
        omega
    · intro hk
      obtain ⟨_, h2⟩ := hDone hk
      rw [h2] at hw
      simp at hw
  | wExec l1 l2 tk hw =>
    refine ⟨?_, ?_, ?_⟩
    · intro hk
      obtain ⟨h1, h2⟩ := hSet hk
      refine ⟨h1, ?_⟩
      simp [hw] at h2 ⊢
      omega
    · intro k hk
      obtain ⟨h1, h2, h3, h4⟩ := hEnq k hk
      rw [hw, gettingCount, countP_middle] at h4
      refine ⟨h1, h2, ?_, ?_⟩
      · simp [hw] at h3 ⊢
        omega
      · rw [gettingCount, countP_middle]
        simp at h4 ⊢
        omega
    · intro hk
      obtain ⟨_, h2⟩ := hDone hk
      rw [h2] at hw
      simp at hw
  | aEnq l1 l2 tk ha =>
    refine ⟨hSet, ?_, hDone⟩
    intro k hk
    obtain ⟨h1, h2, h3, h4⟩ := hEnq k hk
    refine ⟨h1, h2, h3, ?_⟩
    rw [sentinelCount, List.countP_append]
    rw [sentinelCount] at h4
    simp
    omega
  | aInc l1 l2 ha =>
    exact ⟨hSet, hEnq, hDone⟩
  | sSet hs =>
    refine ⟨?_, ?_, ?_⟩
    · intro hk
      simp at hk
    · intro k hk
      obtain ⟨hse, hlen⟩ := hSet hs
      injection hk with hk2
      refine ⟨rfl, ?_, hlen, ?_⟩
      · show s.sentEnq + k = W
        omega
      · show gettingCount s.workers ≤ sentinelCount s.queue + k
        have hle : gettingCount s.workers ≤ s.workers.length := by
          rw [gettingCount]
          apply List.countP_le_length
        omega
    · intro hk
      simp at hk
  | sEnq k hs =>
    refine ⟨?_, ?_, ?_⟩
    · intro hk
      simp at hk
    · intro k2 hk
      obtain ⟨h1, h2, h3, h4⟩ := hEnq (k + 1) hs
      injection hk with hk2
      subst hk2
      refine ⟨h1, ?_, h3, ?_⟩
      · show s.sentEnq + 1 + k = W
        omega
      · show gettingCount s.workers ≤ sentinelCount (s.queue ++ [none]) + k
        rw [sentinelCount, List.countP_append]
        rw [sentinelCount] at h4
        simp
        omega
    · intro hk
      simp at hk
  | sFin hs hall =>
    refine ⟨?_, ?_, ?_⟩
    · intro hk
      simp at hk
    · intro k hk
      simp at hk
    · intro _
      obtain ⟨_, h2, _, _⟩ := hEnq 0 hs
      refine ⟨?_, rfl⟩
      show s.sentEnq = W
      omega

/-- The stop-phase invariant holds in every reachable state. -/
theorem CInv_reach {W : Nat} {s t : SysState}
    (hR : Relation.ReflTransGen Step s t) (hC : CInv W s) : CInv W t := by
  induction hR with
  | refl => exact hC
  | tail _ hstep ih => exact CInv_step hstep ih

/-- A state in which `stop_workers` has just been called: the caller is
about to run `self.running = False` and no sentinels are enqueued yet. -/
def PostCall (s : SysState) : Prop :=
  s.stopper = SPc.setFlag ∧ s.sentEnq = 0

/-- The stop-phase invariant holds at the moment of the call, with `W`
the number of tracked workers. -/
theorem PostCall_CInv (s : SysState) (h : PostCall s) : CInv s.workers.length s := by
  refine ⟨fun _ => ⟨h.2, rfl⟩, fun k hk => ?_, fun hk => ?_⟩
  · rw [h.1] at hk
    simp at hk
  · rw [h.1] at hk
    simp at hk

/-- A state with no enabled action has completed the stop protocol. -/
theorem stuck_is_stopped (W : Nat) (t : SysState) (hC : CInv W t)
    (hstuck : ∀ u, ¬ Step t u) :
    t.stopper = SPc.sdone ∧ t.workers = [] ∧ t.sentEnq = W := by
  obtain ⟨hSet, hEnq, hDone⟩ := hC
  cases hst : t.stopper with
  | setFlag => exact absurd (Step.sSet t hst) (hstuck _)
  | enqSent k =>
    cases k with
    | succ k => exact absurd (Step.sEnq t k hst) (hstuck _)
    | zero =>
      obtain ⟨hrun, hse, hlen, hGS⟩ := hEnq 0 hst
      have hall : ∀ pc ∈ t.workers, pc = WPc.done := by
        intro pc hpc
        by_contra hne
        obtain ⟨l1, l2, hw⟩ := List.append_of_mem hpc
        cases pc with
        | done => exact hne rfl
        | checkRun => exact absurd (Step.wCheckFalse t l1 l2 hrun hw) (hstuck _)
        | gotSent => exact absurd (Step.wSent t l1 l2 hw) (hstuck _)
        | gotTask tk => exact absurd (Step.wExec t l1 l2 tk hw) (hstuck _)
        | getting =>
          have hG : 1 ≤ gettingCount t.workers := by
            rw [hw, gettingCount, countP_middle]
            simp
            omega
          have hS : 1 ≤ sentinelCount t.queue := by omega
          cases hq : t.queue with
          | nil =>
            rw [hq, sentinelCount, List.countP_nil] at hS
            omega
          | cons hd rest =>
            cases hd with
            | none => exact absurd (Step.wGetSent t l1 l2 rest hw hq) (hstuck _)
            | some tk => exact absurd (Step.wGetTask t l1 l2 tk rest hw hq) (hstuck _)
      exact absurd (Step.sFin t hst hall) (hstuck _)
  | sdone =>
    obtain ⟨hse, hwn⟩ := hDone hst
    exact ⟨rfl, hwn, hse⟩

/-- C6: from the moment `stop_workers` is called (any worker count,
including zero, and any backlog of pending tasks), the system cannot run
forever, and any state it gets stuck in has the stop call finished:
every worker joined, the handle list cleared, and exactly one sentinel
enqueued per worker tracked at call time.  In particular, with zero
workers the initial state itself is already stuck only when nothing is
pending, and the conclusion then gives an immediate no-op return. -/
theorem stop_workers_terminates (s : SysState) (h : PostCall s) :
    (∀ f : ℕ → SysState, f 0 = s → ¬ ∀ n, Step (f n) (f (n + 1)))
  ∧ ∀ t, Relation.ReflTransGen Step s t → (∀ u, ¬ Step t u) →
      t.stopper = SPc.sdone ∧ t.workers = [] ∧ t.sentEnq = s.workers.length := by
  constructor
  · intro f _ hsteps
    exact no_infinite_execution f hsteps
  · intro t hR hstuck
    exact stuck_is_stopped s.workers.length t (CInv_reach hR (PostCall_CInv s h)) hstuck

/-- C6 witness: `stop_workers` on a pool that was never started (zero
workers, empty queue). -/
theorem stop_workers_terminates_witness :
    PostCall ⟨[], false, [], [], SPc.setFlag, 0, ⟨0, 0, 0⟩⟩
  ∧ ((∀ f : ℕ → SysState,
        f 0 = ⟨[], false, [], [], SPc.setFlag, 0, ⟨0, 0, 0⟩⟩ →
        ¬ ∀ n, Step (f n) (f (n + 1)))
     ∧ ∀ t, Relation.ReflTransGen Step
           (⟨[], false, [], [], SPc.setFlag, 0, ⟨0, 0, 0⟩⟩ : SysState) t →
         (∀ u, ¬ Step t u) →
         t.stopper = SPc.sdone ∧ t.workers = [] ∧ t.sentEnq = 0) := by
  have hp : PostCall ⟨[], false, [], [], SPc.setFlag, 0, ⟨0, 0, 0⟩⟩ := ⟨rfl, rfl⟩
  exact ⟨hp, stop_workers_terminates _ hp⟩
